import Mathlib

set_option autoImplicit false

/-!
Shallow embedding of three Closure Library modules:
  closure/goog/storage/mechanism/prefixedmechanism.js (PrefixedMechanism),
  closure/goog/storage/mechanism/ieuserdata.js (IEUserData key codec),
  closure/goog/net/jsloader.js (safeLoadMany / safeLoad / safeLoadAndVerify),
together with theorems about the behaviour of these embeddings.
Keys, values and URIs are modelled as Lean strings or lists of Unicode
scalar values; the asynchronous loader is modelled as an explicit state
machine driven by submission and completion events.
-/

namespace ClosureVerify

/-! ### Backend store (external collaborator of PrefixedMechanism) -/

/-- Modelled from the spec: the IterableStore backend capability of section 6
(the underlying `goog.storage.mechanism.IterableMechanism` is not part of the
sources). An association list of key-value pairs; the list order is the
backend iteration order. -/
abbrev Backend := List (String × String)

/-- Modelled from the spec: backend `get(key) -> value|null`. -/
def bGet (m : Backend) (key : String) : Option String :=
  List.lookup key m

/-- Modelled from the spec: backend `set(key, value)`; overwrites any previous
binding of the key. -/
def bSet (m : Backend) (key value : String) : Backend :=
  (key, value) :: m.filter (fun p => decide (p.1 ≠ key))

/-- Modelled from the spec: the backend key iterator (the ES6 iterator of an
IterableMechanism yields the raw backend keys, in backend order). -/
def bKeys (m : Backend) : List String :=
  m.map Prod.fst

/-! ### PrefixedMechanism (src/unnamed/part_000) -/

/-- Embeds `goog.storage.mechanism.PrefixedMechanism`: the wrapped mechanism
and the stored namespace string `prefix_` (field `pfx_` here). -/
structure PrefixedMechanism where
  mechanism_ : Backend
  pfx_ : String
deriving DecidableEq, Repr

/-- The constructor: `this.prefix_ = prefix + '::'`. -/
def pmInit (mechanism : Backend) (ns : String) : PrefixedMechanism :=
  { mechanism_ := mechanism, pfx_ := ns ++ "::" }

/-- `PrefixedMechanism.prototype.set`: delegate with the rewritten key. -/
def PrefixedMechanism.set (pm : PrefixedMechanism) (key value : String) :
    PrefixedMechanism :=
  { pm with mechanism_ := bSet pm.mechanism_ (pm.pfx_ ++ key) value }

/-- `PrefixedMechanism.prototype.get`: delegate with the rewritten key. -/
def PrefixedMechanism.get (pm : PrefixedMechanism) (key : String) :
    Option String :=
  bGet pm.mechanism_ (pm.pfx_ ++ key)

/-- `PrefixedMechanism.prototype.remove`: delegate with the rewritten key. -/
def PrefixedMechanism.remove (pm : PrefixedMechanism) (key : String) :
    PrefixedMechanism :=
  { pm with
    mechanism_ := List.filter (fun p => decide (p.1 ≠ pm.pfx_ ++ key))
      pm.mechanism_ }

/-- The `next` loop of `PrefixedMechanism.prototype.__iterator__`, run to
exhaustion over the backend key sequence: skip every key whose first
`pfx_.length` characters differ from `pfx_`; for a matching key yield either
the de-prefixed key (`opt_keys` true) or `mechanism_.get(key)`. -/
def pmIterSeq (pm : PrefixedMechanism) (wantKeys : Bool) :
    List String → List (Option String)
  | [] => []
  | key :: rest =>
    if key.take pm.pfx_.length = pm.pfx_ then
      (if wantKeys then some (key.drop pm.pfx_.length)
       else bGet pm.mechanism_ key) :: pmIterSeq pm wantKeys rest
    else pmIterSeq pm wantKeys rest

/-- `PrefixedMechanism.prototype.__iterator__(opt_keys)`, as the full finite
sequence it yields over the backend iteration order. -/
def PrefixedMechanism.iterate (pm : PrefixedMechanism) (wantKeys : Bool) :
    List (Option String) :=
  pmIterSeq pm wantKeys (bKeys pm.mechanism_)

/-! ### Theorems for claims C4 and C5 -/

/-- C4: for every key k and value v, calling set(k, v) on the namespacing
wrapper and then get(k) on the same wrapper returns v, the key having been
rewritten to prefix ++ "::" ++ k in the backend for both operations. -/
theorem prefixed_set_then_get (m : Backend) (ns k v : String) :
    ((pmInit m ns).set k v).get k = some v
    ∧ ((pmInit m ns).set k v).mechanism_ = bSet m ((ns ++ "::") ++ k) v
    ∧ (pmInit m ns).get k = bGet m ((ns ++ "::") ++ k) := by
  refine ⟨?_, rfl, rfl⟩
  simp [PrefixedMechanism.get, PrefixedMechanism.set, pmInit, bGet, bSet,
    List.lookup]

/-- C5: iterating the namespacing wrapper yields exactly the backend entries
whose raw key begins with the stored namespace string, in backend iteration
order, skipping all others; a yielded key has the namespace stripped, and
otherwise the value looked up in the backend is yielded. -/
theorem prefixed_iterate_filters (pm : PrefixedMechanism) (wantKeys : Bool) :
    pm.iterate wantKeys =
      ((bKeys pm.mechanism_).filter
          (fun key => decide (key.take pm.pfx_.length = pm.pfx_))).map
        (fun key => if wantKeys then some (key.drop pm.pfx_.length)
          else bGet pm.mechanism_ key) := by
  unfold PrefixedMechanism.iterate
  induction bKeys pm.mechanism_ with
  | nil => rfl
  | cons key rest ih =>
    by_cases h : key.take pm.pfx_.length = pm.pfx_
    · simp [pmIterSeq, h, ih]
    · simp [pmIterSeq, h, ih]

/-! ### jsloader error codes (goog.net.jsloader.ErrorCode) -/

/-- `goog.net.jsloader.ErrorCode`. -/
inductive ErrorCode where
  | LOAD_ERROR
  | TIMEOUT
  | VERIFY_ERROR
  | VERIFY_OBJECT_ALREADY_EXISTS
deriving DecidableEq, Repr

/-- The numeric values of the `goog.net.jsloader.ErrorCode` enum. -/
def ErrorCode.code : ErrorCode → Nat
  | .LOAD_ERROR => 0
  | .TIMEOUT => 1
  | .VERIFY_ERROR => 2
  | .VERIFY_OBJECT_ALREADY_EXISTS => 3

/-! ### Single load lifecycle (goog.net.jsloader.safeLoad) -/

/-- `goog.net.jsloader.DEFAULT_TIMEOUT`. -/
def DEFAULT_TIMEOUT : Int := 5000

/-- `goog.net.jsloader.Options` (the fields the control flow reads; `none`
models an absent / undefined field). -/
structure Options where
  timeout : Option Int := none
  cleanupWhenDone : Bool := false
deriving DecidableEq, Repr

/-- `(options.timeout != null) ? options.timeout :
goog.net.jsloader.DEFAULT_TIMEOUT`. -/
def timeoutDuration (options : Options) : Int :=
  match options.timeout with
  | some t => t
  | none => DEFAULT_TIMEOUT

/-- The observable state of one `safeLoad` request: whether the injected
script node is still in the document, whether its onload/onerror handlers are
still attached (cleanup replaces them by `goog.nullFunction`), whether the
armed timeout timer is still pending, and the settlement of the returned
deferred (`none` while pending). -/
structure LoadState where
  nodeInDoc : Bool
  handlersActive : Bool
  timerArmed : Bool
  result : Option (Except ErrorCode Unit)
deriving Repr

/-- The synchronous part of `goog.net.jsloader.safeLoad`: create the script
node, arm the timer iff the timeout duration is positive, attach handlers,
append the node to the document, return with the deferred still pending. -/
def safeLoadStart (options : Options) : LoadState :=
  { nodeInDoc := true
    handlersActive := true
    timerArmed := decide (timeoutDuration options > 0)
    result := none }

/-- `goog.net.jsloader.cleanup_(scriptNode, removeScriptNode, opt_timeout)`:
clears the pending timer (when one is passed), nulls the three handlers, and
removes the script node from the document iff `removeScriptNode` (the source
performs the `removeNode` inside a zero-delay timeout to appease older
browsers; it is modelled as the removal itself). -/
def cleanup_ (s : LoadState) (removeScriptNode : Bool) : LoadState :=
  { s with
    timerArmed := false
    handlersActive := false
    nodeInDoc := s.nodeInDoc && !removeScriptNode }

/-- The timeout timer firing (the `window.setTimeout` callback in
`safeLoad`): runs only while the timer is still pending; calls
`cleanup_(script, true)` and then errbacks the deferred with a TIMEOUT
error. -/
def timeoutFire (s : LoadState) : LoadState :=
  if s.timerArmed then
    { cleanup_ s true with result := some (.error .TIMEOUT) }
  else s

/-- The `script.onload` / `onreadystatechange` handler on a completed load:
`cleanup_(script, options.cleanupWhenDone, timeout)` then
`deferred.callback(null)`. A handler nulled by a previous cleanup does
nothing. -/
def scriptOnload (options : Options) (s : LoadState) : LoadState :=
  if s.handlersActive then
    { cleanup_ s options.cleanupWhenDone with result := some (.ok ()) }
  else s

/-- The `script.onerror` handler: `cleanup_(script, true, timeout)` then
errback with a LOAD_ERROR error. -/
def scriptOnerror (s : LoadState) : LoadState :=
  if s.handlersActive then
    { cleanup_ s true with result := some (.error .LOAD_ERROR) }
  else s

/-! ### Verification registry (goog.net.jsloader.safeLoadAndVerify) -/

/-- The process-wide verification registry
`goog.global[goog.net.jsloader.GLOBAL_VERIFY_OBJS_]`: named slots holding the
values set by loaded scripts (values modelled as naturals). -/
abbrev VerifyRegistry := List (String × Nat)

/-- `verifyObjs[name]` (`none` models an undefined slot). -/
def vLookup (reg : VerifyRegistry) (name : String) : Option Nat :=
  List.lookup name reg

/-- `delete verifyObjs[name]`. -/
def vErase (reg : VerifyRegistry) (name : String) : VerifyRegistry :=
  reg.filter (fun p => decide (p.1 ≠ name))

/-- The observable state of one `safeLoadAndVerify` call: the registry, a
flag recording whether `safeLoad` was invoked for the URI, and the settlement
of the returned deferred. -/
structure VerifyState where
  reg : VerifyRegistry
  loadStarted : Bool
  result : Option (Except ErrorCode Nat)
deriving Repr

/-- The synchronous part of `goog.net.jsloader.safeLoadAndVerify`: if the
named slot is already defined (`verifyObjs[verificationObjName] !==
undefined`), return a deferred already failed with
VERIFY_OBJECT_ALREADY_EXISTS, without calling `safeLoad`; otherwise send the
load request and return with the deferred pending. -/
def safeLoadAndVerifyStart (reg : VerifyRegistry) (name : String) :
    VerifyState :=
  if (vLookup reg name).isSome then
    { reg := reg, loadStarted := false
      result := some (.error .VERIFY_OBJECT_ALREADY_EXISTS) }
  else
    { reg := reg, loadStarted := true, result := none }

/-- The `sendDeferred.addCallback` continuation of `safeLoadAndVerify`,
running after the underlying load completed successfully, over whatever
registry the loaded script left behind: if the slot is defined, calls back
with its value and deletes the slot; otherwise errbacks with VERIFY_ERROR. -/
def verifyOnLoadSuccess (reg : VerifyRegistry) (name : String) : VerifyState :=
  match vLookup reg name with
  | some result =>
    { reg := vErase reg name, loadStarted := true, result := some (.ok result) }
  | none =>
    { reg := reg, loadStarted := true, result := some (.error .VERIFY_ERROR) }

/-- The `sendDeferred.addErrback` continuation of `safeLoadAndVerify`: deletes
the slot when defined and passes the load error through. -/
def verifyOnLoadError (reg : VerifyRegistry) (name : String) (e : ErrorCode) :
    VerifyState :=
  if (vLookup reg name).isSome then
    { reg := vErase reg name, loadStarted := true, result := some (.error e) }
  else
    { reg := reg, loadStarted := true, result := some (.error e) }

/-! ### Theorems for claims C6, C7 and C8 -/

/-- Looking a key up after filtering out every pair with that key yields
nothing. -/
theorem vLookup_vErase (reg : VerifyRegistry) (name : String) :
    vLookup (vErase reg name) name = none := by
  unfold vLookup vErase
  induction reg with
  | nil => rfl
  | cons p rest ih =>
    obtain ⟨k, v⟩ := p
    by_cases h : k = name
    · simpa [List.filter_cons, h] using ih
    · have hbeq : (name == k) = false := beq_false_of_ne (Ne.symm h)
      simp [List.filter_cons, h, List.lookup_cons, hbeq, ih]
      exact fun a b _ h1 h2 => h1 h2.symm

/-- C6: for every safeLoadAndVerify call whose load completes successfully,
if the named slot is then defined in the registry the handle settles
successfully with the slot value and the slot is deleted; if the slot is
undefined the handle settles on the failure path with a VERIFY_ERROR
error. -/
theorem verify_after_successful_load (reg : VerifyRegistry) (name : String) :
    (∀ v, vLookup reg name = some v →
      (verifyOnLoadSuccess reg name).result = some (.ok v)
      ∧ vLookup (verifyOnLoadSuccess reg name).reg name = none)
    ∧ (vLookup reg name = none →
      (verifyOnLoadSuccess reg name).result = some (.error .VERIFY_ERROR)) := by
  constructor
  · intro v hv
    refine ⟨by simp [verifyOnLoadSuccess, hv], ?_⟩
    simp only [verifyOnLoadSuccess, hv]
    exact vLookup_vErase reg name
  · intro hv
    simp [verifyOnLoadSuccess, hv]

/-- Witness for C6 at concrete registries. -/
theorem verify_after_successful_load_witness :
    ((verifyOnLoadSuccess [("slot", 7)] "slot").result = some (.ok 7)
      ∧ vLookup (verifyOnLoadSuccess [("slot", 7)] "slot").reg "slot" = none)
    ∧ (verifyOnLoadSuccess [] "slot").result
        = some (.error .VERIFY_ERROR) := by
  refine ⟨(verify_after_successful_load [("slot", 7)] "slot").1 7 (by decide),
    (verify_after_successful_load [] "slot").2 (by decide)⟩

/-- C7: a safeLoadAndVerify call made while the named slot is already defined
fails immediately with a VERIFY_OBJECT_ALREADY_EXISTS error and no load of
the URI is attempted. -/
theorem verify_slot_collision (reg : VerifyRegistry) (name : String)
    (h : (vLookup reg name).isSome = true) :
    (safeLoadAndVerifyStart reg name).result
        = some (.error .VERIFY_OBJECT_ALREADY_EXISTS)
    ∧ (safeLoadAndVerifyStart reg name).loadStarted = false := by
  simp [safeLoadAndVerifyStart, h]

/-- Witness for C7 at a concrete registry. -/
theorem verify_slot_collision_witness :
    (vLookup [("slot", 1)] "slot").isSome = true
    ∧ (safeLoadAndVerifyStart [("slot", 1)] "slot").result
        = some (.error .VERIFY_OBJECT_ALREADY_EXISTS)
    ∧ (safeLoadAndVerifyStart [("slot", 1)] "slot").loadStarted = false := by
  refine ⟨by decide, verify_slot_collision [("slot", 1)] "slot" (by decide)⟩

/-- C8: when the armed timeout timer of a load fires before its completion or
error callback has run (so the timer is still pending), the handle settles on
the failure path with a TIMEOUT error and the script node is cleaned up and
removed from the document; moreover the completion and error callbacks always
disarm the timer, and safeLoad arms it exactly when the configured duration
is positive. -/
theorem load_timeout_settles (options : Options) (s : LoadState)
    (h : s.timerArmed = true) :
    ((timeoutFire s).result = some (.error .TIMEOUT)
      ∧ (timeoutFire s).nodeInDoc = false
      ∧ (timeoutFire s).handlersActive = false)
    ∧ (s.handlersActive = true →
        (scriptOnload options s).timerArmed = false
        ∧ (scriptOnerror s).timerArmed = false)
    ∧ ((safeLoadStart options).timerArmed = true ↔ timeoutDuration options > 0) := by
  refine ⟨by simp [timeoutFire, h, cleanup_], ?_, by simp [safeLoadStart]⟩
  intro hh
  exact ⟨by simp [scriptOnload, hh, cleanup_],
    by simp [scriptOnerror, hh, cleanup_]⟩

/-- Witness for C8 at a freshly started load with the default timeout. -/
theorem load_timeout_settles_witness :
    (safeLoadStart {}).timerArmed = true
    ∧ (timeoutFire (safeLoadStart {})).result = some (.error .TIMEOUT)
    ∧ (timeoutFire (safeLoadStart {})).nodeInDoc = false := by
  have h := load_timeout_settles {} (safeLoadStart {}) (by decide)
  exact ⟨by decide, h.1.1, h.1.2.1⟩

/-! ### The shared load queue (goog.net.jsloader.safeLoadMany)

URIs are modelled as naturals and deferreds by numeric ids. A `Chain` records
one run of `popAndLoadNextScript` continuations: the deferred id that
`scriptLoadingDeferred_` held when the chain was started, the URI whose load
is currently in flight for this chain, and whether `popAndLoadNextScript` is
attached (`addBoth`) to that load. Because of the re-entrancy race in
`safeLoadMany`, more than one chain can be alive at once, all shifting from
the one shared `scriptsToLoad_` array. Ghost fields (`started`, `completed`,
`submittedAll`, `fireLog`) record the observable history. -/

/-- One active `popAndLoadNextScript` chain. -/
structure Chain where
  defId : Nat
  uri : Nat
  cont : Bool
deriving DecidableEq, Repr

/-- The global state of the jsloader module plus ghost observation fields.
`fireLog` records, for each deferred that fired, the deferred id and a
snapshot of `scriptsToLoad_`, `completed` and `submittedAll` at firing time.
`stuck` records a continuation having shifted an empty queue (the resulting
`undefined` URI makes `TrustedResourceUrl.unwrap` throw). -/
structure JsState where
  scriptsToLoad_ : List Nat
  shared : Nat
  chains : List Chain
  started : List Nat
  completed : List Nat
  firedDefs : List Nat
  fireLog : List (Nat × List Nat × List Nat × List Nat)
  submittedAll : List Nat
  nextDef : Nat
  stuck : Bool
deriving DecidableEq, Repr

/-- The initial module state: empty queue, no drain, no stored deferred. -/
def initState : JsState :=
  { scriptsToLoad_ := []
    shared := 0
    chains := []
    started := []
    completed := []
    firedDefs := []
    fireLog := []
    submittedAll := []
    nextDef := 1
    stuck := false }

/-- `goog.net.jsloader.safeLoadMany(trustedUris)`; returns the new state and
the id of the returned deferred.
An empty batch returns `goog.async.Deferred.succeed(null)`: a fresh,
already-fired deferred, touching nothing else. Otherwise
`isAnotherModuleLoading` is the truthiness of `scriptsToLoad_.length` BEFORE
the `goog.array.extend`: when the queue is non-empty the batch is appended
and the stored `scriptLoadingDeferred_` is returned; when it is empty (even
if a previously started load is still in flight) the code appends, runs
`popAndLoadNextScript` once - shifting the first URI, starting its load and
attaching the continuation iff URIs remain - and stores and returns the new
deferred. -/
def submitBatch (trustedUris : List Nat) (s : JsState) : JsState × Nat :=
  match trustedUris with
  | [] =>
    ({ s with
        nextDef := s.nextDef + 1
        firedDefs := s.firedDefs ++ [s.nextDef] }, s.nextDef)
  | u :: us =>
    match s.scriptsToLoad_ with
    | q :: qs =>
      ({ s with
          scriptsToLoad_ := (q :: qs) ++ (u :: us)
          submittedAll := s.submittedAll ++ (u :: us) }, s.shared)
    | [] =>
      ({ s with
          scriptsToLoad_ := us
          started := s.started ++ [u]
          chains := s.chains ++ [{ defId := s.nextDef, uri := u
                                   cont := decide (us ≠ []) }]
          shared := s.nextDef
          submittedAll := s.submittedAll ++ (u :: us)
          nextDef := s.nextDef + 1 }, s.nextDef)

/-- Completion (success or failure: the continuation is attached with
`addBoth`, so both run the same code) of the load in flight for the chain at
index `i`. If the continuation is attached, `popAndLoadNextScript` runs:
shift the queue (an empty queue shifts `undefined` and throws, recorded as
`stuck`), start the load of the shifted URI and re-attach the continuation
iff the queue is still non-empty afterwards. Without the continuation the
chain is finished and its deferred fires. -/
def completeLoad (i : Nat) (ok : Bool) (s : JsState) : JsState :=
  match s.chains[i]? with
  | none => s
  | some c =>
    let s1 := { s with completed := s.completed ++ [c.uri] }
    if c.cont then
      match s1.scriptsToLoad_ with
      | [] => { s1 with stuck := true, chains := s1.chains.eraseIdx i }
      | u :: rest =>
        { s1 with
            scriptsToLoad_ := rest
            started := s1.started ++ [u]
            chains := s1.chains.set i { defId := c.defId, uri := u
                                        cont := decide (rest ≠ []) } }
    else
      { s1 with
          chains := s1.chains.eraseIdx i
          firedDefs := s1.firedDefs ++ [c.defId]
          fireLog := s1.fireLog
            ++ [(c.defId, s1.scriptsToLoad_, s1.completed, s1.submittedAll)] }

/-- External events driving the module: a `safeLoadMany` call, or the
completion (with success flag `ok`) of the load in flight for one chain. -/
inductive Ev where
  | submit (uris : List Nat)
  | complete (i : Nat) (ok : Bool)
deriving DecidableEq, Repr

/-- One event step. -/
def step (s : JsState) : Ev → JsState
  | .submit uris => (submitBatch uris s).1
  | .complete i ok => completeLoad i ok s

/-- Run a sequence of events. -/
def run (s : JsState) : List Ev → JsState
  | [] => s
  | e :: t => run (step s e) t

/-- An event schedule avoids the re-entrancy race when every non-empty
submission arrives either while the pending queue is non-empty or while no
load at all is outstanding. -/
def raceFreeEv (s : JsState) : Ev → Bool
  | .submit uris => uris.isEmpty || !s.scriptsToLoad_.isEmpty || s.chains.isEmpty
  | .complete _ _ => true

/-- A race-free event schedule from a given state. -/
def raceFree (s : JsState) : List Ev → Bool
  | [] => true
  | e :: t => raceFreeEv s e && raceFree (step s e) t

/-! ### Theorems for claims C9 and C1 -/

/-- C9: a `safeLoadMany` call with an empty URI list returns an
already-successful deferred immediately, without modifying the pending
queue, without starting any load and without touching the stored shared
deferred or the active chains. -/
theorem safeLoadMany_empty_batch (s : JsState) :
    (submitBatch [] s).1.scriptsToLoad_ = s.scriptsToLoad_
    ∧ (submitBatch [] s).1.started = s.started
    ∧ (submitBatch [] s).1.chains = s.chains
    ∧ (submitBatch [] s).1.shared = s.shared
    ∧ (submitBatch [] s).2 ∈ (submitBatch [] s).1.firedDefs := by
  refine ⟨rfl, rfl, rfl, rfl, ?_⟩
  simp [submitBatch]

/-- C1 fails on the code: submitting `[2]` while the load of `1` (submitted
as the batch `[1]`) is still outstanding starts a second concurrent drain
chain, because `isAnotherModuleLoading` tests the queue length and the queue
is already empty while the last shifted URI is still loading. After the two
submissions two chains are alive, both loads have started, neither has
completed, and the second caller got a fresh deferred instead of the first
one. -/
theorem safeLoadMany_second_drain_race :
    (run initState [.submit [1], .submit [2]]).chains.length = 2
    ∧ (run initState [.submit [1], .submit [2]]).started = [1, 2]
    ∧ (run initState [.submit [1], .submit [2]]).completed = []
    ∧ (submitBatch [2] (submitBatch [1] initState).1).2
        ≠ (submitBatch [1] initState).2 := by
  decide

/-! ### Single-batch drain characterization (claim C2) -/

/-- The module state in the middle of draining one batch `uris` submitted on
an idle module: `k` loads have completed, the load of `uris[k]` is in
flight, and `uris` beyond position `k` are still queued. -/
def drainState (uris : List Nat) (k : Nat) : JsState :=
  { scriptsToLoad_ := uris.drop (k + 1)
    shared := 1
    chains := [{ defId := 1, uri := uris.getD k 0
                 cont := decide (uris.drop (k + 1) ≠ []) }]
    started := uris.take (k + 1)
    completed := uris.take k
    firedDefs := []
    fireLog := []
    submittedAll := uris
    nextDef := 2
    stuck := false }

/-- A schedule of completion events for the single active chain, each with
its own success flag. -/
def compTrace (bs : List Bool) : List Ev :=
  bs.map (fun b => Ev.complete 0 b)

/-- Submitting a non-empty batch on the idle module yields the drain state
with zero completions. -/
theorem submit_starts_drain (u : Nat) (us : List Nat) :
    (submitBatch (u :: us) initState).1 = drainState (u :: us) 0 := rfl

/-- One completion in mid-drain shifts and starts exactly the next URI. -/
theorem drain_step (uris : List Nat) (k : Nat) (b : Bool)
    (h : k + 1 < uris.length) :
    completeLoad 0 b (drainState uris k) = drainState uris (k + 1) := by
  have hk : k < uris.length := by omega
  have hcont : uris.drop (k + 1) ≠ [] := by
    rw [ne_eq, List.drop_eq_nil_iff]
    omega
  have hdrop : uris.drop (k + 1) = uris[k + 1] :: uris.drop (k + 2) :=
    List.drop_eq_getElem_cons h
  have hgd : uris.getD k 0 = uris[k] := by
    simp [List.getD, List.getElem?_eq_getElem hk]
  have hgd1 : uris.getD (k + 1) 0 = uris[k + 1] := by
    simp [List.getD, List.getElem?_eq_getElem h]
  have htake : uris.take (k + 1) ++ [uris[k + 1]] = uris.take (k + 2) := by
    conv_rhs => rw [show k + 2 = (k + 1) + 1 from rfl, List.take_succ]
    rw [List.getElem?_eq_getElem h]
    rfl
  have htake0 : uris.take k ++ [uris[k]] = uris.take (k + 1) := by
    conv_rhs => rw [List.take_succ]
    rw [List.getElem?_eq_getElem hk]
    rfl
  rw [completeLoad]
  simp only [drainState, List.getElem?_cons_zero]
  rw [if_pos (by simpa using hcont)]
  rw [hdrop]
  simp only [List.set]
  exact JsState.mk.injEq .. |>.mpr
    ⟨rfl, rfl, by rw [hgd1], by rw [htake], by rw [hgd, htake0],
      rfl, rfl, rfl, rfl, rfl⟩

/-- Running `n` completions in mid-drain advances the drain by `n` while
enough URIs remain. -/
theorem drain_run (uris : List Nat) (bs : List Bool) : ∀ (k : Nat),
    k + bs.length + 1 ≤ uris.length →
    run (drainState uris k) (compTrace bs) = drainState uris (k + bs.length) := by
  induction bs with
  | nil => intro k h; simp [compTrace, run]
  | cons b bs ih =>
    intro k h
    simp only [List.length_cons] at h
    have hstep : step (drainState uris k) (.complete 0 b)
        = drainState uris (k + 1) := drain_step uris k b (by omega)
    have htail := ih (k + 1) (by omega)
    calc run (drainState uris k) (compTrace (b :: bs))
        = run (drainState uris (k + 1)) (compTrace bs) := by
          simp [compTrace, run, hstep]
      _ = drainState uris (k + 1 + bs.length) := htail
      _ = drainState uris (k + (b :: bs).length) := by
          simp [List.length_cons]
          congr 1
          omega

/-- C2: for a non-empty batch of URIs submitted in one `safeLoadMany` call on
the idle module, after any `k < N` completions (each a success or a failure)
exactly the first `k + 1` URIs have had their loads started, in submission
order, the first `k` have completed, and exactly one load is in flight: the
load of URI `i + 1` starts only once the load of URI `i` has completed. -/
theorem safeLoadMany_serial_order (uris : List Nat) (bs : List Bool)
    (h1 : uris ≠ []) (h2 : bs.length < uris.length) :
    (run (submitBatch uris initState).1 (compTrace bs)).started
        = uris.take (bs.length + 1)
    ∧ (run (submitBatch uris initState).1 (compTrace bs)).completed
        = uris.take bs.length
    ∧ (run (submitBatch uris initState).1 (compTrace bs)).chains.length = 1
    ∧ (run (submitBatch uris initState).1 (compTrace bs)).scriptsToLoad_
        = uris.drop (bs.length + 1) := by
  obtain ⟨u, us, rfl⟩ : ∃ u us, uris = u :: us := by
    cases uris with
    | nil => exact absurd rfl h1
    | cons u us => exact ⟨u, us, rfl⟩
  rw [submit_starts_drain, drain_run (u :: us) bs 0 (by omega)]
  simp [drainState]

/-- Witness for C2: a three-URI batch after two completions (one success,
one failure) has started exactly the first three loads in order. -/
theorem safeLoadMany_serial_order_witness :
    (run (submitBatch [10, 20, 30] initState).1
        (compTrace [true, false])).started = [10, 20, 30]
    ∧ (run (submitBatch [10, 20, 30] initState).1
        (compTrace [true, false])).completed = [10, 20]
    ∧ (run (submitBatch [10, 20, 30] initState).1
        (compTrace [true, false])).chains.length = 1 := by
  have h := safeLoadMany_serial_order [10, 20, 30] [true, false]
    (by decide) (by decide)
  exact ⟨h.1, h.2.1, h.2.2.1⟩

/-! ### Race-free invariant of the shared queue (claim C3) -/

/-- Invariant of the module state along race-free schedules: at most one
chain is alive, a live chain owns the stored shared deferred, its
continuation is attached exactly while URIs are pending, the ghost ledger
balances, deferred ids are fresh, the stored shared deferred has not fired
while anything is outstanding, and every logged firing happened with an
empty queue once everything submitted had completed. -/
structure Inv (s : JsState) : Prop where
  one : s.chains.length ≤ 1
  empq : s.chains = [] → s.scriptsToLoad_ = []
  cdef : ∀ c ∈ s.chains, c.defId = s.shared
  ccont : ∀ c ∈ s.chains, (c.cont = true ↔ s.scriptsToLoad_ ≠ [])
  ledger : s.submittedAll
    = s.completed ++ s.chains.map Chain.uri ++ s.scriptsToLoad_
  sharedLt : s.shared < s.nextDef
  firedLt : ∀ d ∈ s.firedDefs, d < s.nextDef
  sharedFired : s.shared ∈ s.firedDefs →
    s.chains = [] ∧ s.scriptsToLoad_ = []
  log : ∀ e ∈ s.fireLog, e.2.1 = [] ∧ e.2.2.1 = e.2.2.2

/-- The initial state satisfies the invariant. -/
theorem inv_init : Inv initState := by
  constructor <;> simp [initState]

/-- A chain found by index in a state with at most one chain is the unique
chain, at index zero. -/
theorem chains_eq_singleton (s : JsState) (h1 : s.chains.length ≤ 1)
    (i : Nat) (c : Chain) (h : s.chains[i]? = some c) :
    i = 0 ∧ s.chains = [c] := by
  cases hs : s.chains with
  | nil => rw [hs] at h; cases i <;> simp at h
  | cons a l =>
    rw [hs] at h1
    simp only [List.length_cons] at h1
    have hl : l = [] := List.eq_nil_of_length_eq_zero (by omega)
    subst hl
    rw [hs] at h
    cases i with
    | zero =>
      simp only [List.getElem?_cons_zero, Option.some.injEq] at h
      exact ⟨rfl, by rw [h]⟩
    | succ n => simp at h

/-- Reduction of `completeLoad` on the unique chain when the continuation is
attached and URIs remain queued. -/
theorem completeLoad_cont (s : JsState) (ok : Bool) (c : Chain) (u : Nat)
    (rest : List Nat) (hcs : s.chains = [c]) (hcont : c.cont = true)
    (hq : s.scriptsToLoad_ = u :: rest) :
    completeLoad 0 ok s =
      { s with
          completed := s.completed ++ [c.uri]
          scriptsToLoad_ := rest
          started := s.started ++ [u]
          chains := [{ defId := c.defId, uri := u
                       cont := decide (rest ≠ []) }] } := by
  simp [completeLoad, hcs, hcont, hq]

/-- Reduction of `completeLoad` on the unique chain when no continuation is
attached: the chain fires its deferred. -/
theorem completeLoad_fire (s : JsState) (ok : Bool) (c : Chain)
    (hcs : s.chains = [c]) (hcont : c.cont = false) :
    completeLoad 0 ok s =
      { s with
          completed := s.completed ++ [c.uri]
          chains := []
          firedDefs := s.firedDefs ++ [c.defId]
          fireLog := s.fireLog
            ++ [(c.defId, s.scriptsToLoad_, s.completed ++ [c.uri],
                  s.submittedAll)] } := by
  simp [completeLoad, hcs, hcont]

/-- Every race-free event preserves the invariant. -/
theorem inv_step (s : JsState) (e : Ev) (hI : Inv s)
    (hr : raceFreeEv s e = true) : Inv (step s e) := by
  obtain ⟨one, empq, cdef, ccont, ledger, sharedLt, firedLt, sharedFired,
    log⟩ := hI
  cases e with
  | submit uris =>
    cases uris with
    | nil =>
      simp only [step, submitBatch]
      exact
        { one := one
          empq := empq
          cdef := cdef
          ccont := ccont
          ledger := ledger
          sharedLt := by dsimp only; omega
          firedLt := by
            dsimp only
            intro d hd
            rcases List.mem_append.mp hd with h | h
            · exact Nat.lt_succ_of_lt (firedLt d h)
            · simp only [List.mem_singleton] at h
              omega
          sharedFired := by
            dsimp only
            intro hmem
            rcases List.mem_append.mp hmem with h | h
            · exact sharedFired h
            · simp only [List.mem_singleton] at h
              omega
          log := log }
    | cons u us =>
      by_cases hq0 : s.scriptsToLoad_ = []
      case neg =>
        obtain ⟨q, qs, hq⟩ := List.exists_cons_of_ne_nil hq0
        simp only [step, submitBatch, hq]
        exact
          { one := one
            empq := by
              dsimp only
              intro hc
              exact absurd (hq ▸ empq hc) (by simp)
            cdef := cdef
            ccont := by
              dsimp only
              intro c hc
              rw [ccont c hc, hq]
              simp
            ledger := by
              dsimp only
              rw [ledger, hq]
              simp
            sharedLt := sharedLt
            firedLt := firedLt
            sharedFired := by
              dsimp only
              intro hmem
              exact absurd (hq ▸ (sharedFired hmem).2) (by simp)
            log := log }
      case pos =>
        have hchains : s.chains = [] := by
          simp only [raceFreeEv, hq0, List.isEmpty_cons, List.isEmpty_nil,
            Bool.not_true, Bool.false_or, List.isEmpty_eq_true] at hr
          exact hr
        simp only [step, submitBatch, hq0, hchains]
        exact
          { one := by simp
            empq := by simp
            cdef := by
              dsimp only
              intro c hc
              simp only [List.nil_append, List.mem_singleton] at hc
              rw [hc]
            ccont := by
              dsimp only
              intro c hc
              simp only [List.nil_append, List.mem_singleton] at hc
              rw [hc]
              simp
            ledger := by
              dsimp only
              have hsub : s.submittedAll = s.completed := by
                rw [ledger, hchains, hq0]
                simp
              rw [hsub]
              simp
            sharedLt := by dsimp only; omega
            firedLt := by
              dsimp only
              intro d hd
              exact Nat.lt_succ_of_lt (firedLt d hd)
            sharedFired := by
              dsimp only
              intro hmem
              exact absurd (firedLt _ hmem) (by omega)
            log := log }
  | complete i ok =>
    simp only [step]
    cases hc : s.chains[i]? with
    | none =>
      simp only [completeLoad, hc]
      exact ⟨one, empq, cdef, ccont, ledger, sharedLt, firedLt, sharedFired,
        log⟩
    | some c =>
      obtain ⟨hi, hcs⟩ := chains_eq_singleton s one i c hc
      subst hi
      have hcmem : c ∈ s.chains := by rw [hcs]; simp
      by_cases hcont : c.cont = true
      · have hqne : s.scriptsToLoad_ ≠ [] := (ccont c hcmem).mp hcont
        obtain ⟨u, rest, hq⟩ := List.exists_cons_of_ne_nil hqne
        rw [completeLoad_cont s ok c u rest hcs hcont hq]
        exact
          { one := by simp
            empq := by simp
            cdef := by
              dsimp only
              intro c' hc'
              simp only [List.mem_singleton] at hc'
              rw [hc']
              exact cdef c hcmem
            ccont := by
              dsimp only
              intro c' hc'
              simp only [List.mem_singleton] at hc'
              rw [hc']
              simp
            ledger := by
              dsimp only
              rw [ledger, hcs, hq]
              simp
            sharedLt := sharedLt
            firedLt := firedLt
            sharedFired := by
              dsimp only
              intro hmem
              exact absurd (sharedFired hmem).1 (by rw [hcs]; simp)
            log := log }
      · have hq : s.scriptsToLoad_ = [] := by
          by_contra hx
          exact hcont ((ccont c hcmem).mpr hx)
        rw [completeLoad_fire s ok c hcs (by simpa using hcont)]
        exact
          { one := by simp
            empq := by
              dsimp only
              intro _
              exact hq
            cdef := by simp
            ccont := by simp
            ledger := by
              dsimp only
              rw [ledger, hcs, hq]
              simp
            sharedLt := sharedLt
            firedLt := by
              dsimp only
              intro d hd
              rcases List.mem_append.mp hd with h | h
              · exact firedLt d h
              · simp only [List.mem_singleton] at h
                rw [h, cdef c hcmem]
                exact sharedLt
            sharedFired := by
              dsimp only
              intro _
              exact ⟨rfl, hq⟩
            log := by
              dsimp only
              intro entry hmem
              rcases List.mem_append.mp hmem with h | h
              · exact log entry h
              · simp only [List.mem_singleton] at h
                rw [h]
                refine ⟨hq, ?_⟩
                dsimp only
                rw [ledger, hcs, hq]
                simp }

/-- A race-free schedule preserves the invariant. -/
theorem inv_run (s : JsState) (t : List Ev) (hI : Inv s)
    (hr : raceFree s t = true) : Inv (run s t) := by
  induction t generalizing s with
  | nil => exact hI
  | cons e t ih =>
    simp only [raceFree, Bool.and_eq_true] at hr
    exact ih (step s e) (inv_step s e hI hr.1) hr.2

/-- C3: along any race-free schedule, a non-empty batch submitted while the
queue is still draining (URIs pending) receives exactly the stored shared
deferred, and in every race-free continuation every deferred that fires does
so with the pending queue empty and with everything ever submitted already
completed - the shared handle never settles while pending URIs remain. -/
theorem shared_handle_settles_after_queue (t : List Ev) (uris : List Nat)
    (h1 : raceFree initState t = true) (h2 : uris ≠ [])
    (h3 : (run initState t).scriptsToLoad_ ≠ []) :
    (submitBatch uris (run initState t)).2 = (run initState t).shared
    ∧ (∀ t2, raceFree (submitBatch uris (run initState t)).1 t2 = true →
        ∀ entry ∈ (run (submitBatch uris (run initState t)).1 t2).fireLog,
          entry.2.1 = [] ∧ entry.2.2.1 = entry.2.2.2) := by
  have hInv : Inv (run initState t) := inv_run initState t inv_init h1
  obtain ⟨u, us, hu⟩ := List.exists_cons_of_ne_nil h2
  obtain ⟨q, qs, hq⟩ := List.exists_cons_of_ne_nil h3
  constructor
  · rw [hu, submitBatch, hq]
  · intro t2 hr2 entry hmem
    have hev : raceFreeEv (run initState t) (.submit uris) = true := by
      simp [raceFreeEv, hq]
    have hInv1 : Inv (submitBatch uris (run initState t)).1 :=
      inv_step (run initState t) (.submit uris) hInv hev
    exact (inv_run _ t2 hInv1 hr2).log entry hmem

/-- Witness for C3: submitting `[3]` while `[1, 2]` is draining returns the
stored shared deferred, and race-free continuations only fire deferreds with
the queue drained. -/
theorem shared_handle_settles_after_queue_witness :
    (submitBatch [3] (run initState [Ev.submit [1, 2]])).2
        = (run initState [Ev.submit [1, 2]]).shared
    ∧ (∀ t2, raceFree (submitBatch [3]
          (run initState [Ev.submit [1, 2]])).1 t2 = true →
        ∀ entry ∈ (run (submitBatch [3]
            (run initState [Ev.submit [1, 2]])).1 t2).fireLog,
          entry.2.1 = [] ∧ entry.2.2.1 = entry.2.2.2) :=
  shared_handle_settles_after_queue [Ev.submit [1, 2]] [3]
    (by decide) (by decide) (by decide)

/-! ### IEUserData key codec (encodeKey_ / decodeKey_)

Strings are modelled as lists of Unicode scalar values. The ECMAScript
builtins `encodeURIComponent` and `decodeURIComponent` that the codec is
built on are modelled from the ECMA-262 Encode/Decode operations: UTF-8
percent-encoding with uppercase hex, leaving the unreserved set
[-A-Za-z0-9_.!~*'()] intact, and strict UTF-8 percent-decoding (escape
sequences must form valid, shortest-form, non-surrogate scalar values). -/

/-- The uppercase hex digit (as a character code) of a value below 16, as
produced by `Number.prototype.toString(16).toUpperCase()`. -/
def hexUp (n : Nat) : Nat :=
  if n < 10 then 48 + n else 55 + n

/-- The value of a hex digit character code (both cases), `none` for a
non-hex character. -/
def hexVal (c : Nat) : Option Nat :=
  if 48 ≤ c ∧ c ≤ 57 then some (c - 48)
  else if 65 ≤ c ∧ c ≤ 70 then some (c - 55)
  else if 97 ≤ c ∧ c ≤ 102 then some (c - 87)
  else none

/-- The UTF-8 bytes of a Unicode scalar value. -/
def utf8Bytes (c : Nat) : List Nat :=
  if c < 128 then [c]
  else if c < 2048 then [192 + c / 64, 128 + c % 64]
  else if c < 65536 then [224 + c / 4096, 128 + c / 64 % 64, 128 + c % 64]
  else [240 + c / 262144, 128 + c / 4096 % 64, 128 + c / 64 % 64,
    128 + c % 64]

/-- A percent escape `%XY` of one byte, uppercase. -/
def pctByte (b : Nat) : List Nat :=
  [37, hexUp (b / 16), hexUp (b % 16)]

/-- The characters `encodeURIComponent` leaves unencoded:
A-Z a-z 0-9 - _ . ! ~ * ' ( ). -/
def uriUnreserved (c : Nat) : Bool :=
  c == 45 || c == 95 || c == 46 || c == 33 || c == 126 || c == 42
    || c == 39 || c == 40 || c == 41
    || (c ≥ 48 && c ≤ 57) || (c ≥ 65 && c ≤ 90) || (c ≥ 97 && c ≤ 122)

/-- `encodeURIComponent` over a list of scalar values: unreserved characters
pass through, everything else is percent-encoded byte-by-byte in UTF-8. -/
def encodeURIComponentL : List Nat → List Nat
  | [] => []
  | c :: rest =>
    (if uriUnreserved c then [c] else (utf8Bytes c).flatMap pctByte)
      ++ encodeURIComponentL rest

/-- The per-character replacement of
`.replace(/[.!~*'()%]/g, c => IEUserData.ENCODE_MAP[c])`:
the eight mapped characters are replaced by their ENCODE_MAP strings
(".2E", ".21", ".7E", ".2A", ".27", ".28", ".29" and "." for "%"), all
other characters pass through. -/
def encMapChar (c : Nat) : List Nat :=
  if c = 46 then [46, 50, 69]
  else if c = 33 then [46, 50, 49]
  else if c = 126 then [46, 55, 69]
  else if c = 42 then [46, 50, 65]
  else if c = 39 then [46, 50, 55]
  else if c = 40 then [46, 50, 56]
  else if c = 41 then [46, 50, 57]
  else if c = 37 then [46]
  else [c]

/-- `goog.storage.mechanism.IEUserData.encodeKey_`: an underscore, then
`encodeURIComponent` of the key with the ENCODE_MAP replacement applied. -/
def encodeKey_ (key : List Nat) : List Nat :=
  95 :: (encodeURIComponentL key).flatMap encMapChar

/-- `key.replace(/\./g, '%')`: every dot becomes a percent sign. -/
def dotsToPct (s : List Nat) : List Nat :=
  s.map (fun c => if c = 46 then 37 else c)

/-- A token of the percent-unescaped stream: a literal (unescaped) character
or a byte produced by one `%XY` escape. -/
inductive Tok where
  | lit (c : Nat)
  | byte (b : Nat)
deriving DecidableEq, Repr

/-- First phase of `decodeURIComponent` (ECMA-262 Decode): scan the string,
turning each `%XY` escape (two hex digits required) into a byte token and
every other character into a literal token. -/
def pctScan : List Nat → Option (List Tok)
  | [] => some []
  | c :: rest =>
    if c = 37 then
      match rest with
      | h :: l :: rest2 =>
        match hexVal h, hexVal l with
        | some a, some d =>
          (pctScan rest2).map (fun ts => Tok.byte (16 * a + d) :: ts)
        | _, _ => none
      | _ => none
    else (pctScan rest).map (fun ts => Tok.lit c :: ts)

/-- One step of the second phase of `decodeURIComponent`: from the token
stream, read one code point - a literal character, or a strict UTF-8
sequence of byte tokens (shortest form, continuation bytes from escapes
only, scalar values only) - and return it with the remaining tokens. -/
def decodeTok1 : List Tok → Option (Nat × List Tok)
  | [] => none
  | .lit c :: rest => some (c, rest)
  | .byte b0 :: rest =>
    if b0 < 128 then some (b0, rest)
    else if b0 < 224 then
      match rest with
      | .byte b1 :: rest1 =>
        if 194 ≤ b0 ∧ 128 ≤ b1 ∧ b1 < 192 then
          some ((b0 - 192) * 64 + (b1 - 128), rest1)
        else none
      | _ => none
    else if b0 < 240 then
      match rest with
      | .byte b1 :: .byte b2 :: rest2 =>
        let c := (b0 - 224) * 4096 + (b1 - 128) * 64 + (b2 - 128)
        if 128 ≤ b1 ∧ b1 < 192 ∧ 128 ≤ b2 ∧ b2 < 192 ∧ 2048 ≤ c
            ∧ ¬(55296 ≤ c ∧ c < 57344) then some (c, rest2)
        else none
      | _ => none
    else
      match rest with
      | .byte b1 :: .byte b2 :: .byte b3 :: rest3 =>
        let c := (b0 - 240) * 262144 + (b1 - 128) * 4096 + (b2 - 128) * 64
          + (b3 - 128)
        if 128 ≤ b1 ∧ b1 < 192 ∧ 128 ≤ b2 ∧ b2 < 192 ∧ 128 ≤ b3 ∧ b3 < 192
            ∧ 65536 ≤ c ∧ c < 1114112 then some (c, rest3)
        else none
      | _ => none

/-- Reading one code point consumes at least one token. -/
theorem decodeTok1_length : ∀ (ts : List Tok) (c : Nat) (rest : List Tok),
    decodeTok1 ts = some (c, rest) → rest.length < ts.length := by
  intro ts c rest h
  rw [decodeTok1.eq_def] at h
  repeat' split at h
  all_goals simp_all
  all_goals omega

/-- Second phase of `decodeURIComponent`: read code points off the token
stream until it is exhausted; any malformed sequence fails the whole
decode. -/
def utf8DecodeToks (ts : List Tok) : Option (List Nat) :=
  if hts : ts = [] then some []
  else
    match h : decodeTok1 ts with
    | none => none
    | some (c, rest) => (utf8DecodeToks rest).map (fun cs => c :: cs)
termination_by ts.length
decreasing_by exact decodeTok1_length ts c rest h

/-- `decodeURIComponent` over a list of character codes (`none` models a
thrown URIError). -/
def decodeURIComponentL (s : List Nat) : Option (List Nat) :=
  (pctScan s).bind utf8DecodeToks

/-- `goog.storage.mechanism.IEUserData.decodeKey_`:
`decodeURIComponent(key.replace(/\./g, '%')).substr(1)`. -/
def decodeKey_ (key : List Nat) : Option (List Nat) :=
  (decodeURIComponentL (dotsToPct key)).map (List.drop 1)

/-- A valid key: a list of Unicode scalar values (what a well-formed
JavaScript string holds; a lone surrogate would make `encodeURIComponent`
throw). -/
def validScalar (c : Nat) : Bool :=
  decide (c < 1114112) && !(decide (55296 ≤ c) && decide (c < 57344))

/-- All characters of the key are Unicode scalar values. -/
def validKey (k : List Nat) : Bool :=
  k.all validScalar

/-! ### Round trip of the key codec (claim C10) -/

/-- The characters that survive both `encodeURIComponent` and the ENCODE_MAP
replacement unchanged: A-Z a-z 0-9 - _. -/
def strictKeyChar (c : Nat) : Bool :=
  c == 45 || c == 95
    || (c ≥ 48 && c ≤ 57) || (c ≥ 65 && c ≤ 90) || (c ≥ 97 && c ≤ 122)

/-- Percent-encoding with the strict unreserved set [-A-Za-z0-9_]: the net
effect of `encodeURIComponent` followed by the ENCODE_MAP replacement
followed by the dot-to-percent replacement of `decodeKey_`. -/
def strictEncodeL : List Nat → List Nat
  | [] => []
  | c :: rest =>
    (if strictKeyChar c then [c] else (utf8Bytes c).flatMap pctByte)
      ++ strictEncodeL rest

/-- The token stream that percent-scanning the strict encoding yields. -/
def utf8Toks (k : List Nat) : List Tok :=
  k.flatMap (fun c =>
    if strictKeyChar c then [Tok.lit c] else (utf8Bytes c).map Tok.byte)

/-- Hex digits round-trip below 16. -/
theorem hexVal_hexUp : ∀ n, n < 16 → hexVal (hexUp n) = some n := by decide

/-- UTF-8 bytes of a scalar value are bytes. -/
theorem utf8Bytes_lt (c : Nat) (hc : c < 1114112) :
    ∀ b ∈ utf8Bytes c, b < 256 := by
  intro b hb
  unfold utf8Bytes at hb
  split at hb
  · simp only [List.mem_singleton] at hb
    omega
  · split at hb
    · rcases List.mem_pair.mp hb with h | h <;> omega
    · split at hb
      · simp only [List.mem_cons, List.mem_singleton, List.not_mem_nil,
          or_false] at hb
        rcases hb with h | h | h <;> omega
      · simp only [List.mem_cons, List.mem_singleton, List.not_mem_nil,
          or_false] at hb
        rcases hb with h | h | h | h <;> omega

set_option maxRecDepth 10000 in
/-- The ENCODE_MAP replacement then the dot-to-percent replacement leave a
percent escape unchanged. -/
theorem encMap_pct : ∀ b, b < 256 →
    dotsToPct ((pctByte b).flatMap encMapChar) = pctByte b := by decide

/-- The composite replacement leaves a whole percent-encoded byte string
unchanged. -/
theorem encMap_pcts (bs : List Nat) (hb : ∀ b ∈ bs, b < 256) :
    dotsToPct ((bs.flatMap pctByte).flatMap encMapChar)
      = bs.flatMap pctByte := by
  induction bs with
  | nil => rfl
  | cons b bs ih =>
    simp only [List.flatMap_cons, List.flatMap_append, dotsToPct,
      List.map_append] at *
    rw [show (List.map (fun c => if c = 46 then 37 else c)
        ((pctByte b).flatMap encMapChar)) = pctByte b from
      encMap_pct b (hb b (by simp)),
      ih (fun x hx => hb x (by simp [hx]))]

/-- Scanning one percent escape yields its byte token. -/
theorem pctScan_pctByte (b : Nat) (hb : b < 256) (t : List Nat) :
    pctScan (pctByte b ++ t)
      = (pctScan t).map (fun ts => Tok.byte b :: ts) := by
  have h1 : b / 16 < 16 := by omega
  have h2 : b % 16 < 16 := by omega
  have hb16 : 16 * (b / 16) + b % 16 = b := by omega
  simp only [pctByte, List.cons_append, List.nil_append]
  rw [pctScan.eq_def]
  simp [hexVal_hexUp _ h1, hexVal_hexUp _ h2, hb16]

/-- Scanning an unescaped character yields its literal token. -/
theorem pctScan_lit (c : Nat) (hc : ¬c = 37) (t : List Nat) :
    pctScan (c :: t) = (pctScan t).map (fun ts => Tok.lit c :: ts) := by
  rw [pctScan.eq_def]
  simp [hc]

/-- Scanning a run of percent escapes yields the corresponding byte
tokens. -/
theorem pctScan_bytes (bs : List Nat) (hb : ∀ b ∈ bs, b < 256)
    (t : List Nat) :
    pctScan (bs.flatMap pctByte ++ t)
      = (pctScan t).map (fun ts => bs.map Tok.byte ++ ts) := by
  induction bs with
  | nil => cases h : pctScan t <;> simp [h]
  | cons b bs ih =>
    simp only [List.flatMap_cons, List.append_assoc, List.map_cons]
    rw [pctScan_pctByte b (hb b (by simp)) _,
      ih (fun x hx => hb x (by simp [hx]))]
    cases h : pctScan t <;> simp [h]

/-- The decoder on the empty token stream. -/
theorem utf8Dec_nil : utf8DecodeToks [] = some [] := by
  rw [utf8DecodeToks]
  simp

/-- Unfolding the decoder through one successfully read code point. -/
theorem utf8Dec_step (ts : List Tok) (c : Nat) (rest : List Tok)
    (hne : ¬ts = []) (hdec : decodeTok1 ts = some (c, rest)) :
    utf8DecodeToks ts = (utf8DecodeToks rest).map (fun cs => c :: cs) := by
  rw [utf8DecodeToks, dif_neg hne]
  split
  next h => rw [hdec] at h; cases h
  next c2 rest2 h =>
    rw [hdec] at h
    cases h
    rfl

/-- Reading one code point off a literal token. -/
theorem decodeTok1_lit (c : Nat) (rest : List Tok) :
    decodeTok1 (.lit c :: rest) = some (c, rest) := rfl

/-- Reading one code point off the byte tokens of the UTF-8 encoding of a
scalar value yields that scalar value. -/
theorem decodeTok1_utf8 (c : Nat) (hlt : c < 1114112)
    (hsur : ¬(55296 ≤ c ∧ c < 57344)) (rest : List Tok) :
    decodeTok1 ((utf8Bytes c).map Tok.byte ++ rest) = some (c, rest) := by
  by_cases h1 : c < 128
  · rw [utf8Bytes, if_pos h1]
    simp only [List.map_cons, List.map_nil, List.cons_append, List.nil_append,
      decodeTok1]
    rw [if_pos h1]
  · by_cases h2 : c < 2048
    · rw [utf8Bytes, if_neg h1, if_pos h2]
      simp only [List.map_cons, List.map_nil, List.cons_append,
        List.nil_append, decodeTok1]
      have e0 : ¬192 + c / 64 < 128 := by omega
      have e1 : 192 + c / 64 < 224 := by omega
      rw [if_neg e0, if_pos e1, if_pos (by omega)]
      refine congrArg some (Prod.ext ?_ rfl)
      show (192 + c / 64 - 192) * 64 + (128 + c % 64 - 128) = c
      omega
    · by_cases h3 : c < 65536
      · rw [utf8Bytes, if_neg h1, if_neg h2, if_pos h3]
        simp only [List.map_cons, List.map_nil, List.cons_append,
          List.nil_append, decodeTok1]
        have hv : (224 + c / 4096 - 224) * 4096
            + (128 + c / 64 % 64 - 128) * 64 + (128 + c % 64 - 128) = c := by
          omega
        have e0 : ¬224 + c / 4096 < 128 := by omega
        have e1 : ¬224 + c / 4096 < 224 := by omega
        have e2 : 224 + c / 4096 < 240 := by omega
        rw [if_neg e0, if_neg e1, if_pos e2, if_pos (by omega)]
        exact congrArg some (Prod.ext hv rfl)
      · rw [utf8Bytes, if_neg h1, if_neg h2, if_neg h3]
        simp only [List.map_cons, List.map_nil, List.cons_append,
          List.nil_append, decodeTok1]
        have hv : (240 + c / 262144 - 240) * 262144
            + (128 + c / 4096 % 64 - 128) * 4096
            + (128 + c / 64 % 64 - 128) * 64 + (128 + c % 64 - 128) = c := by
          omega
        have e0 : ¬240 + c / 262144 < 128 := by omega
        have e1 : ¬240 + c / 262144 < 224 := by omega
        have e2 : ¬240 + c / 262144 < 240 := by omega
        rw [if_neg e0, if_neg e1, if_neg e2, if_pos (by omega)]
        exact congrArg some (Prod.ext hv rfl)

/-- The strict character class, as a proposition. -/
theorem strictKeyChar_iff (c : Nat) :
    strictKeyChar c = true ↔
      (48 ≤ c ∧ c ≤ 57) ∨ (65 ≤ c ∧ c ≤ 90) ∨ (97 ≤ c ∧ c ≤ 122)
        ∨ c = 45 ∨ c = 95 := by
  simp only [strictKeyChar, Bool.or_eq_true, Bool.and_eq_true, beq_iff_eq,
    ge_iff_le, decide_eq_true_eq]
  omega

/-- The unreserved character class of `encodeURIComponent`, as a
proposition. -/
theorem uriUnreserved_iff (c : Nat) :
    uriUnreserved c = true ↔
      (48 ≤ c ∧ c ≤ 57) ∨ (65 ≤ c ∧ c ≤ 90) ∨ (97 ≤ c ∧ c ≤ 122)
        ∨ c = 45 ∨ c = 95 ∨ c = 46 ∨ c = 33 ∨ c = 126 ∨ c = 42 ∨ c = 39
        ∨ c = 40 ∨ c = 41 := by
  simp only [uriUnreserved, Bool.or_eq_true, Bool.and_eq_true, beq_iff_eq,
    ge_iff_le, decide_eq_true_eq]
  omega

/-- A valid scalar value, as propositions. -/
theorem validScalar_props (c : Nat) (h : validScalar c = true) :
    c < 1114112 ∧ ¬(55296 ≤ c ∧ c < 57344) := by
  simp only [validScalar, Bool.and_eq_true, decide_eq_true_eq] at h
  refine ⟨h.1, ?_⟩
  rintro ⟨ha, hb⟩
  have h2 := h.2
  rw [decide_eq_true ha, decide_eq_true hb] at h2
  simp at h2

/-- Splitting validity of a non-empty key. -/
theorem validKey_cons (c : Nat) (k : List Nat) (h : validKey (c :: k) = true) :
    validScalar c = true ∧ validKey k = true := by
  simpa [validKey] using h

/-- `dotsToPct` distributes over append. -/
theorem dotsToPct_append (a b : List Nat) :
    dotsToPct (a ++ b) = dotsToPct a ++ dotsToPct b :=
  List.map_append _ a b

/-- The composite of the ENCODE_MAP replacement and the dot-to-percent
replacement turns the `encodeURIComponent` block of one character into its
strict percent encoding. -/
theorem encMap_char (c : Nat) (hlt : c < 1114112) :
    dotsToPct ((if uriUnreserved c then [c]
        else (utf8Bytes c).flatMap pctByte).flatMap encMapChar)
      = (if strictKeyChar c then [c]
          else (utf8Bytes c).flatMap pctByte) := by
  by_cases hs : strictKeyChar c = true
  · have hrange := (strictKeyChar_iff c).mp hs
    have hu : uriUnreserved c = true := by
      rw [uriUnreserved_iff]
      omega
    rw [if_pos hu, if_pos hs]
    simp only [List.flatMap_cons, List.flatMap_nil, List.append_nil]
    have d1 : c ≠ 46 := by omega
    have d2 : c ≠ 33 := by omega
    have d3 : c ≠ 126 := by omega
    have d4 : c ≠ 42 := by omega
    have d5 : c ≠ 39 := by omega
    have d6 : c ≠ 40 := by omega
    have d7 : c ≠ 41 := by omega
    have d8 : c ≠ 37 := by omega
    rw [encMapChar, if_neg d1, if_neg d2, if_neg d3, if_neg d4, if_neg d5,
      if_neg d6, if_neg d7, if_neg d8]
    simp only [dotsToPct, List.map_cons, List.map_nil]
    rw [if_neg d1]
  · by_cases hu : uriUnreserved c = true
    · have hspec : c = 46 ∨ c = 33 ∨ c = 126 ∨ c = 42 ∨ c = 39 ∨ c = 40
          ∨ c = 41 := by
        rw [uriUnreserved_iff] at hu
        rw [strictKeyChar_iff] at hs
        omega
      rw [if_pos hu, if_neg hs]
      rcases hspec with rfl | rfl | rfl | rfl | rfl | rfl | rfl <;> decide
    · rw [if_neg hu, if_neg hs]
      exact encMap_pcts (utf8Bytes c) (utf8Bytes_lt c hlt)

/-- The two replacements rewrite the full `encodeURIComponent` output into
the strict percent encoding of the key. -/
theorem dots_encMap (k : List Nat) (hv : validKey k = true) :
    dotsToPct ((encodeURIComponentL k).flatMap encMapChar)
      = strictEncodeL k := by
  induction k with
  | nil => rfl
  | cons c k ih =>
    obtain ⟨hc, hk⟩ := validKey_cons c k hv
    have hlt := (validScalar_props c hc).1
    rw [encodeURIComponentL, strictEncodeL, List.flatMap_append,
      dotsToPct_append, encMap_char c hlt, ih hk]

/-- The UTF-8 encoding of a scalar value is never empty. -/
theorem utf8Bytes_ne_nil (c : Nat) : utf8Bytes c ≠ [] := by
  rw [utf8Bytes]
  split
  · simp
  · split
    · simp
    · split
      · simp
      · simp

/-- Unfolding `utf8Toks` over the leading character. -/
theorem utf8Toks_cons (c : Nat) (k : List Nat) :
    utf8Toks (c :: k)
      = (if strictKeyChar c then [Tok.lit c]
          else (utf8Bytes c).map Tok.byte) ++ utf8Toks k := by
  simp [utf8Toks]

/-- Percent-scanning the strict encoding yields the token stream. -/
theorem pctScan_strict (k : List Nat) (hv : validKey k = true)
    (t : List Nat) :
    pctScan (strictEncodeL k ++ t)
      = (pctScan t).map (fun ts => utf8Toks k ++ ts) := by
  induction k with
  | nil => cases h : pctScan t <;> simp [strictEncodeL, utf8Toks, h]
  | cons c k ih =>
    obtain ⟨hc, hk⟩ := validKey_cons c k hv
    have hlt := (validScalar_props c hc).1
    rw [strictEncodeL, utf8Toks_cons]
    by_cases hs : strictKeyChar c = true
    · have hc37 : ¬c = 37 := by
        rw [strictKeyChar_iff] at hs
        omega
      rw [if_pos hs, if_pos hs, List.append_assoc, List.singleton_append,
        pctScan_lit c hc37, ih hk]
      cases h : pctScan t <;> simp [h]
    · rw [if_neg hs, if_neg hs, List.append_assoc,
        pctScan_bytes (utf8Bytes c) (utf8Bytes_lt c hlt), ih hk]
      cases h : pctScan t <;> simp [h]

/-- Decoding the token stream of a valid key yields the key. -/
theorem utf8Dec_toks (k : List Nat) (hv : validKey k = true)
    (rest : List Tok) :
    utf8DecodeToks (utf8Toks k ++ rest)
      = (utf8DecodeToks rest).map (fun cs => k ++ cs) := by
  induction k with
  | nil =>
    simp only [utf8Toks, List.flatMap_nil, List.nil_append]
    cases h : utf8DecodeToks rest <;> simp [h]
  | cons c k ih =>
    obtain ⟨hc, hk⟩ := validKey_cons c k hv
    obtain ⟨hlt, hsur⟩ := validScalar_props c hc
    rw [utf8Toks_cons, List.append_assoc]
    by_cases hs : strictKeyChar c = true
    · rw [if_pos hs, List.singleton_append,
        utf8Dec_step _ c _ (by simp) (decodeTok1_lit c _), ih hk]
      cases h : utf8DecodeToks rest <;> simp [h]
    · rw [if_neg hs]
      have hne : (utf8Bytes c).map Tok.byte ++ (utf8Toks k ++ rest) ≠ [] := by
        intro habs
        rcases List.append_eq_nil.mp habs with ⟨ha, _⟩
        exact utf8Bytes_ne_nil c (List.map_eq_nil.mp ha)
      rw [utf8Dec_step _ c _ hne (decodeTok1_utf8 c hlt hsur _), ih hk]
      cases h : utf8DecodeToks rest <;> simp [h]

/-- C10: decoding an encoded key round-trips: for every well-formed key,
`decodeKey_(encodeKey_(k)) = k`, where `encodeKey_` prefixes an underscore
and escapes every character outside [-a-zA-Z0-9_] as a dot followed by hex
digits, and `decodeKey_` replaces dots with percent signs, URI-decodes, and
strips the leading underscore. -/
theorem encodeKey_decodeKey_roundtrip (k : List Nat)
    (hv : validKey k = true) : decodeKey_ (encodeKey_ k) = some k := by
  have hA : dotsToPct (encodeKey_ k) = 95 :: strictEncodeL k := by
    rw [encodeKey_]
    simp only [dotsToPct, List.map_cons]
    rw [if_neg (by omega)]
    exact congrArg (95 :: ·) (dots_encMap k hv)
  have hScan : pctScan (95 :: strictEncodeL k)
      = some (Tok.lit 95 :: utf8Toks k) := by
    rw [pctScan_lit 95 (by omega)]
    have h := pctScan_strict k hv []
    rw [List.append_nil] at h
    rw [h]
    simp [pctScan]
  have hDec : utf8DecodeToks (Tok.lit 95 :: utf8Toks k) = some (95 :: k) := by
    rw [utf8Dec_step _ 95 _ (by simp) (decodeTok1_lit 95 _)]
    have h := utf8Dec_toks k hv []
    rw [List.append_nil] at h
    rw [h, utf8Dec_nil]
    simp
  rw [decodeKey_, decodeURIComponentL, hA, hScan]
  simp [hDec]

/-- Witness for C10 at the concrete key "a.b€" (with a multi-byte
character). -/
theorem encodeKey_decodeKey_roundtrip_witness :
    validKey [97, 46, 98, 8364] = true
    ∧ decodeKey_ (encodeKey_ [97, 46, 98, 8364]) = some [97, 46, 98, 8364] :=
  ⟨by decide, encodeKey_decodeKey_roundtrip [97, 46, 98, 8364] (by decide)⟩

end ClosureVerify
